import Mathlib

/-!
Verification development for the module-lifecycle engine of `ai-mcp-server`
(`server.py`).  The engine is embedded shallowly: the SQLite status table is a
function `Store` from module names to optional status strings, the ontology
graph is a `G` record giving the module list and the dependency list of each
module, and each Python function becomes a Lean function of the same shape.
General recursion (the DFS of `detect_cycles` and the memoized longest-path
search of `compute_operational_critical_path`) is rendered with an explicit
fuel parameter returning `Option`; `none` models a computation that did not
finish, and sufficiency lemmas show the fuel chosen by the embedding is enough
in exactly the situations where the Python recursion terminates.
-/

/-- The persisted status store: `none` models a missing row (status unset),
mirroring `get_db_status` returning `None`. -/
def Store : Type := String → Option String

/-- The ontology-derived dependency graph: `modules` embeds `get_all_modules`
(instances of `:Module`), `deps` embeds `get_dependencies`. -/
structure G where
  modules : List String
  deps : String → List String

/-- `set_db_status`: an upsert keyed by module name. -/
def set_db_status (st : Store) (moduleName status : String) : Store :=
  fun x => if x = moduleName then some status else st x

/-- The adjacency actually traversed by `detect_cycles`: the Python code builds
`graph = {m: get_dependencies(m) for m in get_all_modules()}` and reads
`graph.get(node, [])`, so nodes outside the module list have no successors. -/
def adjOf (g : G) (n : String) : List String :=
  if n ∈ g.modules then g.deps n else []

/-- Walks of a relation: `chain E n l` says `l` is the list of nodes visited
after `n`, each step following an `E`-edge. -/
def chain (E : String → String → Prop) : String → List String → Prop
  | _, [] => True
  | n, w :: ws => E n w ∧ chain E w ws

/-- A non-empty closed walk of the relation `E`. -/
def ClosedWalk (E : String → String → Prop) : Prop :=
  ∃ n l, chain E n (l ++ [n])

/-- The dependency relation of the graph: `depEdge g a b` holds when module
`a` declares `b` among its dependencies. -/
def depEdge (g : G) (a b : String) : Prop :=
  a ∈ g.modules ∧ b ∈ g.deps a

/-- The `for neighbor in graph.get(node, [])` loop of `dfs`, short-circuiting
on the first `True`, abstracted over the recursive call. -/
def dfsLoopF (rec : String → List String → List String →
    Option (Bool × List String)) :
    List String → List String → List String → Option (Bool × List String)
  | [], _, visited => some (false, visited)
  | w :: ws, stack, visited =>
    match rec w stack visited with
    | none => none
    | some (true, v) => some (true, v)
    | some (false, v) => dfsLoopF rec ws stack v

/-- The `dfs` inner function of `detect_cycles`, with fuel.  The stack is the
set of nodes on the current exploration path (restored on a `False` return
because it is passed functionally, exactly as the Python code restores it with
`stack.remove(node)`); the visited set persists and is threaded through. -/
def dfsAux (f : String → List String) :
    Nat → String → List String → List String → Option (Bool × List String)
  | 0, _, _, _ => none
  | fuel + 1, node, stack, visited =>
    if node ∈ stack then some (true, visited)
    else if node ∈ visited then some (false, visited)
    else dfsLoopF (dfsAux f fuel) (f node) (node :: stack) (node :: visited)

/-- The neighbour loop at a given fuel level. -/
def dfsLoop (f : String → List String) (fuel : Nat)
    (ws stack visited : List String) : Option (Bool × List String) :=
  dfsLoopF (dfsAux f fuel) ws stack visited

/-- The `any(dfs(node) for node in graph)` fold of `detect_cycles`: visited
persists across start nodes and evaluation stops at the first `True`. -/
def detectAux (f : String → List String) (fuel : Nat) :
    List String → List String → Option Bool
  | [], _ => some false
  | m :: ms, visited =>
    match dfsAux f fuel m [] visited with
    | none => none
    | some (true, _) => some true
    | some (false, v) => detectAux f fuel ms v

/-- Every node the DFS of `g` can ever touch. -/
def uList (g : G) : List String := g.modules ++ g.modules.flatMap g.deps

/-- Fuel that the sufficiency lemma below proves adequate for the DFS. -/
def fuelBound (g : G) : Nat := (uList g).dedup.length + 1

/-- `detect_cycles`. -/
def detect_cycles (g : G) : Bool :=
  (detectAux (adjOf g) (fuelBound g) g.modules []).getD false

/-- `compute_next_steps`: executable = pending and all deps completed. -/
def compute_next_steps (g : G) (st : Store) : List String :=
  g.modules.filter fun m =>
    decide (st m = some "pending") &&
      (g.deps m).all fun d => decide (st d = some "completed")

/-- The `active_modules` list of `compute_operational_critical_path`. -/
def activeModules (g : G) (st : Store) : List String :=
  g.modules.filter fun m => !decide (st m = some "completed")

/-- The reversed (dependency → dependent) adjacency list that
`compute_operational_critical_path` builds: iterating the active modules in
order, each occurrence of `d` among the dependencies of an active `m` appends
`m` to `graph[d]`, and only keys in the active list exist. -/
def radj (g : G) (st : Store) (d : String) : List String :=
  if d ∈ activeModules g st then
    (activeModules g st).flatMap fun m =>
      ((g.deps m).filter fun x => decide (x = d)).map fun _ => m
  else []

/-- The memo table of `compute_operational_critical_path`. -/
def Memo : Type := List (String × (Nat × List String))

/-- The `for n in neighbors` loop of `longest`, keeping the best strictly
improving `(length, path)` pair, abstracted over the recursive call. -/
def longestLoopF (rec : String → Memo → Option (Memo × Nat × List String)) :
    List String → Memo → Nat → List String →
      Option (Memo × Nat × List String)
  | [], memo, bl, bp => some (memo, bl, bp)
  | w :: ws, memo, bl, bp =>
    match rec w memo with
    | none => none
    | some (memo, ln, p) =>
      if bl < ln then longestLoopF rec ws memo ln p
      else longestLoopF rec ws memo bl bp

/-- The memoized `longest(node)` of `compute_operational_critical_path`,
with fuel. -/
def longestAux (g : G) (st : Store) :
    Nat → String → Memo → Option (Memo × Nat × List String)
  | 0, _, _ => none
  | fuel + 1, node, memo =>
    match List.lookup node memo with
    | some v => some (memo, v)
    | none =>
      match radj g st node with
      | [] => some ((node, (1, [node])) :: memo, (1, [node]))
      | w :: ws =>
        match longestLoopF (longestAux g st fuel) (w :: ws) memo 0 [] with
        | none => none
        | some (memo, bl, bp) =>
          some ((node, (bl + 1, node :: bp)) :: memo, (bl + 1, node :: bp))

/-- The neighbour loop at a given fuel level. -/
def longestLoop (g : G) (st : Store) (fuel : Nat) (ws : List String)
    (memo : Memo) (bl : Nat) (bp : List String) :
    Option (Memo × Nat × List String) :=
  longestLoopF (longestAux g st fuel) ws memo bl bp

/-- Fuel for the longest-path search; adequate whenever the active subgraph is
acyclic (sufficiency lemma below). -/
def fuelC (g : G) (st : Store) : Nat := (activeModules g st).length + 1

/-- The outer `for n in active_modules` loop of
`compute_operational_critical_path`, sharing one memo table and keeping the
strictly best result. -/
def critLoop (g : G) (st : Store) : List String → Memo → Nat × List String →
    Option (Nat × List String)
  | [], _, best => some best
  | n :: ns, memo, best =>
    match longestAux g st (fuelC g st) n memo with
    | none => none
    | some (memo, ln, p) =>
      critLoop g st ns memo (if best.1 < ln then (ln, p) else best)

/-- `compute_operational_critical_path`; `none` models the Python recursion
not terminating (a `RecursionError` crash). -/
def compute_operational_critical_path (g : G) (st : Store) :
    Option (Nat × List String) :=
  critLoop g st (activeModules g st) [] (0, [])

/-- Lexicographic byte/code-point comparison of strings, the order Python's
`sorted` uses on `str`. -/
def strLeAux : List Char → List Char → Bool
  | [], _ => true
  | _ :: _, [] => false
  | c :: cs, d :: ds =>
    if c.toNat < d.toNat then true
    else if d.toNat < c.toNat then false
    else strLeAux cs ds

/-- String comparison on the underlying character lists. -/
def strLe (a b : String) : Bool := strLeAux a.data b.data

/-- Stable insertion of a string into a sorted list. -/
def insertStr (a : String) : List String → List String
  | [] => [a]
  | b :: t => if strLe a b then a :: b :: t else b :: insertStr a t

/-- Stable lexicographic sort, the behaviour of Python's `sorted` on a list of
module-name strings. -/
def sortStrs : List String → List String
  | [] => []
  | a :: t => insertStr a (sortStrs t)

/-- `evaluate_project_state`. -/
def evaluate_project_state (g : G) (st : Store) : String :=
  if detect_cycles g then "blocked_by_cycle"
  else if !g.modules.isEmpty &&
      g.modules.all (fun m => decide (st m = some "completed")) then
    "completed"
  else if !(compute_next_steps g st).isEmpty then "active"
  else "stalled"

/-- One `{"module": m, "status": s}` entry of the status snapshot; also the
shape of one `blocked_by` entry in the diagnosis. -/
structure SnapEntry where
  module : String
  status : String
deriving DecidableEq

/-- `get_status_snapshot`: graph modules, sorted, each with its persisted
status or `"unset"`. -/
def get_status_snapshot (g : G) (st : Store) : List SnapEntry :=
  (sortStrs g.modules).map fun m => ⟨m, (st m).getD "unset"⟩

/-- One `{"pending_module": m, "blocked_by": [...]}` entry. -/
structure BlockedItem where
  pending_module : String
  blocked_by : List SnapEntry
deriving DecidableEq

/-- The diagnosis dictionary returned by `diagnose_stall`.  `ready_modules`
is `none` on the branches whose dictionary omits the key. -/
structure Diagnosis where
  state : String
  summary : String
  status_snapshot : List SnapEntry
  ready_modules : Option (List String)
  blocked : List BlockedItem
  recommendations : List String
deriving DecidableEq

/-- A single-quote character, built from its code point. -/
def quoteMark : String := String.singleton (Char.ofNat 39)

/-- The insertion-ordered `blocker_counts` dictionary: a key already present
is incremented in place, a new key is appended at the end. -/
def bumpKey : List ((String × String) × Nat) → (String × String) →
    List ((String × String) × Nat)
  | [], k => [(k, 1)]
  | (k', c) :: t, k =>
    if k' = k then (k', c + 1) :: t else (k', c) :: bumpKey t k

/-- Stable insertion by descending count. -/
def insertByCount (a : (String × String) × Nat) :
    List ((String × String) × Nat) → List ((String × String) × Nat)
  | [] => [a]
  | b :: t => if b.2 ≤ a.2 then a :: b :: t else b :: insertByCount a t

/-- Stable sort by descending count: the behaviour of Python's
`sorted(..., key=lambda x: x[1], reverse=True)`. -/
def sortByCountDesc : List ((String × String) × Nat) →
    List ((String × String) × Nat)
  | [] => []
  | a :: t => insertByCount a (sortByCountDesc t)

/-- The `blocked_info` list of `diagnose_stall`: each pending module paired
with its not-completed dependencies, kept only when at least one exists. -/
def blockedInfo (g : G) (st : Store) (pending : List String) :
    List BlockedItem :=
  pending.filterMap fun m =>
    let blockers := ((g.deps m).filter fun d =>
        !decide (st d = some "completed")).map fun d =>
      (⟨d, (st d).getD "unset"⟩ : SnapEntry)
    if blockers.isEmpty then none else some ⟨m, blockers⟩

/-- One human-readable recommendation line per top blocker. -/
def blockerRec (mod stt : String) (cnt : Nat) : String :=
  if stt = "unset" then
    "Set status for " ++ quoteMark ++ mod ++ quoteMark ++
      " (currently unset) to pending or completed."
  else
    quoteMark ++ mod ++ quoteMark ++ " is blocking " ++ toString cnt ++
      " module(s). Current status: " ++ stt ++
      ". Consider completing it or adjusting dependencies."

/-- `diagnose_stall`. -/
def diagnose_stall (g : G) (st : Store) : Diagnosis :=
  let state := evaluate_project_state g st
  if g.modules.isEmpty then
    { state := state
      summary := "No modules found in ontology."
      status_snapshot := []
      ready_modules := none
      blocked := []
      recommendations := ["Verify ontology has :Module instances."] }
  else if detect_cycles g then
    { state := "blocked_by_cycle"
      summary := "Circular dependency detected."
      status_snapshot := get_status_snapshot g st
      ready_modules := none
      blocked := []
      recommendations :=
        ["Run detect_dependency_cycles and break the loop by removing/adjusting one dependency edge."] }
  else
    let pending := g.modules.filter fun m => decide (st m = some "pending")
    if pending.isEmpty then
      let unset := g.modules.filter fun m => decide (st m = none)
      { state := state
        summary := "No pending modules, but project is not completed. Likely unset statuses."
        status_snapshot := get_status_snapshot g st
        ready_modules := none
        blocked := []
        recommendations :=
          (if !unset.isEmpty then
            ["Some module statuses are unset in DB. Set them to pending/completed/inProgress."]
          else []) ++
          ["If you expected completion, ensure all modules are marked completed in DB."] }
    else
      let ready := compute_next_steps g st
      if !ready.isEmpty then
        { state := "active"
          summary := "Project is active. Executable modules exist."
          status_snapshot := get_status_snapshot g st
          ready_modules := some ready
          blocked := []
          recommendations :=
            ["Execute one of the ready modules and update its status to completed."] }
      else
        let blocked := blockedInfo g st pending
        let counts := (blocked.flatMap fun i =>
          i.blocked_by.map fun b => (b.module, b.status)).foldl bumpKey []
        let top := sortByCountDesc counts
        let recs := (top.take 5).map fun kc => blockerRec kc.1.1 kc.1.2 kc.2
        { state := "stalled"
          summary := "Pending modules exist but none are executable (dependencies not satisfied)."
          status_snapshot := get_status_snapshot g st
          ready_modules := some []
          blocked := blocked
          recommendations :=
            if recs.isEmpty then
              ["Review dependency edges; stalled state detected but no explicit blockers found."]
            else recs }

/-- The payload of one MCP `tools/call` response, with the JSON-RPC envelope
and `str(...)` rendering of `ok`/`ok_obj` abstracted into a typed payload;
`errMsg` models the `err` helper. -/
inductive ToolResult where
  | okText (t : String)
  | okList (l : List String)
  | okBool (b : Bool)
  | okCrit (r : Option (Nat × List String))
  | okSnapshot (s : List SnapEntry)
  | okDiag (d : Diagnosis)
  | errMsg (m : String)
deriving DecidableEq

/-- Python truthiness of an optional string argument: `args.get` yields `None`
for a missing key, and `not module` is also true for the empty string. -/
def argMissing : Option String → Bool
  | none => true
  | some s => decide (s = "")

/-- The `tools/call` dispatch of the `mcp` endpoint (lines 383-413 of
`server.py`): result payload plus the store after the call. -/
def tools_call (g : G) (st : Store) (tool : String)
    (argModule argStatus : Option String) : ToolResult × Store :=
  if tool = "update_module_status" then
    if argMissing argModule || argMissing argStatus then
      (.errMsg "Missing required arguments: module, status", st)
    else
      (.okText "Status updated",
       set_db_status st (argModule.getD "") (argStatus.getD ""))
  else if tool = "get_project_next_steps" then
    (.okList (compute_next_steps g st), st)
  else if tool = "detect_dependency_cycles" then
    (.okBool (detect_cycles g), st)
  else if tool = "compute_operational_critical_path" then
    (.okCrit (compute_operational_critical_path g st), st)
  else if tool = "evaluate_project_state" then
    (.okText (evaluate_project_state g st), st)
  else if tool = "get_module_statuses" then
    (.okSnapshot (get_status_snapshot g st), st)
  else if tool = "diagnose_stall" then
    (.okDiag (diagnose_stall g st), st)
  else (.errMsg ("Unknown tool: " ++ tool), st)

/-! ## Walk and chain infrastructure -/

/-- The edge relation induced by an adjacency-list function. -/
def edgeOf (f : String → List String) (a b : String) : Prop := b ∈ f a

/-- No non-empty closed walk starts (and ends) at `u`. -/
def noCycAt (f : String → List String) (u : String) : Prop :=
  ¬ ∃ l, chain (edgeOf f) u (l ++ [u])

/-- The endpoint of a walk starting at `a` and visiting `l` afterwards. -/
def endOf (a : String) : List String → String
  | [] => a
  | b :: t => endOf b t

lemma chain_nil {E : String → String → Prop} (a : String) : chain E a [] := by
  simp [chain]

lemma chain_cons {E : String → String → Prop} {a w : String} {ws : List String} :
    chain E a (w :: ws) ↔ E a w ∧ chain E w ws := Iff.rfl

lemma chain_append_iff {E : String → String → Prop} :
    ∀ (l1 : List String) (a : String) (l2 : List String),
      chain E a (l1 ++ l2) ↔ chain E a l1 ∧ chain E (endOf a l1) l2 := by
  intro l1
  induction l1 with
  | nil => intro a l2; simp [chain, endOf]
  | cons b t ih =>
    intro a l2
    simp only [List.cons_append, chain_cons, endOf]
    rw [ih b l2]
    tauto

lemma endOf_append_single (a b : String) (l : List String) :
    endOf a (l ++ [b]) = b := by
  induction l generalizing a with
  | nil => rfl
  | cons c t ih => simpa [endOf] using ih c

lemma chain_extend {E : String → String → Prop} {a b c : String}
    {l : List String} (h : chain E a (l ++ [b])) (he : E b c) :
    chain E a ((l ++ [b]) ++ [c]) := by
  rw [chain_append_iff]
  exact ⟨h, by simpa [endOf_append_single, chain] using he⟩

lemma chain_split {E : String → String → Prop} {a w : String}
    {l1 l2 : List String} (h : chain E a (l1 ++ w :: l2)) :
    chain E w l2 ∧ chain E a (l1 ++ [w]) := by
  rw [chain_append_iff] at h
  obtain ⟨h1, h2⟩ := h
  rw [chain_cons] at h2
  refine ⟨h2.2, ?_⟩
  rw [chain_append_iff]
  exact ⟨h1, by simpa [chain] using h2.1⟩

lemma chain_congr {E E' : String → String → Prop}
    (h : ∀ a b, E a b ↔ E' a b) :
    ∀ (l : List String) (n : String), chain E n l ↔ chain E' n l := by
  intro l
  induction l with
  | nil => intro n; simp [chain]
  | cons w ws ih => intro n; rw [chain_cons, chain_cons, h, ih]

lemma closedWalk_congr {E E' : String → String → Prop}
    (h : ∀ a b, E a b ↔ E' a b) : ClosedWalk E ↔ ClosedWalk E' := by
  unfold ClosedWalk
  constructor
  · rintro ⟨n, l, hc⟩; exact ⟨n, l, (chain_congr h _ _).1 hc⟩
  · rintro ⟨n, l, hc⟩; exact ⟨n, l, (chain_congr h _ _).2 hc⟩

/-! ## Unfolding equations for the fueled DFS -/

lemma dfsAux_zero (f : String → List String) (n : String)
    (s v : List String) : dfsAux f 0 n s v = none := rfl

lemma dfsAux_succ (f : String → List String) (fuel : Nat) (n : String)
    (s v : List String) :
    dfsAux f (fuel + 1) n s v =
      if n ∈ s then some (true, v)
      else if n ∈ v then some (false, v)
      else dfsLoop f fuel (f n) (n :: s) (n :: v) := rfl

lemma dfsLoop_nil (f : String → List String) (fuel : Nat)
    (s v : List String) : dfsLoop f fuel [] s v = some (false, v) := rfl

lemma dfsLoop_cons (f : String → List String) (fuel : Nat) (w : String)
    (ws s v : List String) :
    dfsLoop f fuel (w :: ws) s v =
      match dfsAux f fuel w s v with
      | none => none
      | some (true, v') => some (true, v')
      | some (false, v') => dfsLoop f fuel ws s v' := rfl

/-! ## DFS soundness: a `True` answer exhibits a closed walk -/

/-- The stack invariant: each element is a successor of the element below it
(the element following it in the list). -/
def pstack (f : String → List String) : List String → Prop
  | [] => True
  | [_] => True
  | a :: b :: t => a ∈ f b ∧ pstack f (b :: t)

lemma climb (f : String → List String) :
    ∀ (s : List String), pstack f s → ∀ v, v ∈ s → ∀ h t, s = h :: t →
      v = h ∨ ∃ l, chain (edgeOf f) v (l ++ [h]) := by
  intro s
  induction s with
  | nil => intro _ v hv; simp at hv
  | cons h t iht =>
    intro hp v hv h' t' heq
    injection heq with hh ht
    subst hh; subst ht
    rcases List.mem_cons.mp hv with rfl | hvt
    · exact Or.inl rfl
    · right
      cases t with
      | nil => simp at hvt
      | cons b t2 =>
        obtain ⟨hedge, hp2⟩ := hp
        rcases iht hp2 v hvt b t2 rfl with rfl | ⟨l, hc⟩
        · exact ⟨[], by simpa [chain, edgeOf] using hedge⟩
        · exact ⟨l ++ [b], chain_extend hc hedge⟩

lemma dfs_sound (f : String → List String) : ∀ fuel : Nat,
    (∀ node stack visited r, pstack f stack →
      (∀ h t, stack = h :: t → node ∈ f h) →
      dfsAux f fuel node stack visited = some (true, r) →
      ClosedWalk (edgeOf f)) ∧
    (∀ ws h t visited r, pstack f (h :: t) → (∀ w ∈ ws, w ∈ f h) →
      dfsLoop f fuel ws (h :: t) visited = some (true, r) →
      ClosedWalk (edgeOf f)) := by
  intro fuel
  induction fuel with
  | zero =>
    constructor
    · intro node stack visited r _ _ hEq
      rw [dfsAux_zero] at hEq
      exact absurd hEq (by simp)
    · intro ws h t visited r _ _ hEq
      cases ws with
      | nil => rw [dfsLoop_nil] at hEq; simp at hEq
      | cons w ws =>
        rw [dfsLoop_cons, dfsAux_zero] at hEq
        simp at hEq
  | succ fuel ih =>
    obtain ⟨ihA, ihL⟩ := ih
    have hA : ∀ node stack visited r, pstack f stack →
        (∀ h t, stack = h :: t → node ∈ f h) →
        dfsAux f (fuel + 1) node stack visited = some (true, r) →
        ClosedWalk (edgeOf f) := by
      intro node stack visited r hp hlink hEq
      rw [dfsAux_succ] at hEq
      by_cases hmem : node ∈ stack
      · cases stack with
        | nil => simp at hmem
        | cons h t =>
          have hedge : node ∈ f h := hlink h t rfl
          rcases climb f (h :: t) hp node hmem h t rfl with he | ⟨l, hc⟩
          · exact ⟨node, [], by subst he; simpa [chain, edgeOf] using hedge⟩
          · exact ⟨node, l ++ [h], chain_extend hc hedge⟩
      · rw [if_neg hmem] at hEq
        by_cases hvis : node ∈ visited
        · rw [if_pos hvis] at hEq; simp at hEq
        · rw [if_neg hvis] at hEq
          refine ihL (f node) node stack (node :: visited) r ?_ (fun w hw => hw) hEq
          cases stack with
          | nil => trivial
          | cons h t => exact ⟨hlink h t rfl, hp⟩
    refine ⟨hA, ?_⟩
    intro ws
    induction ws with
    | nil =>
      intro h t visited r _ _ hEq
      rw [dfsLoop_nil] at hEq; simp at hEq
    | cons w ws ihw =>
      intro h t visited r hp hws hEq
      rw [dfsLoop_cons] at hEq
      cases hcall : dfsAux f (fuel + 1) w (h :: t) visited with
      | none => rw [hcall] at hEq; simp at hEq
      | some p =>
        obtain ⟨b, v⟩ := p
        cases b with
        | true =>
          exact hA w (h :: t) visited v hp
            (fun h' t' he => by injection he with e1 e2; subst e1; exact hws w (by simp)) hcall
        | false =>
          rw [hcall] at hEq
          exact ihw h t v r hp (fun x hx => hws x (by simp [hx])) hEq

lemma detect_sound (f : String → List String) (fuel : Nat) :
    ∀ ms visited, detectAux f fuel ms visited = some true →
      ClosedWalk (edgeOf f) := by
  intro ms
  induction ms with
  | nil => intro visited h; simp [detectAux] at h
  | cons m ms ih =>
    intro visited h
    simp only [detectAux] at h
    cases hcall : dfsAux f fuel m [] visited with
    | none => rw [hcall] at h; simp at h
    | some p =>
      obtain ⟨b, v⟩ := p
      cases b with
      | true =>
        exact (dfs_sound f fuel).1 m [] visited v trivial
          (by intro h' t' he; simp at he) hcall
      | false =>
        rw [hcall] at h
        exact ih v h

/-! ## DFS completeness: a `False` answer certifies absence of cycles -/

/-- All visited nodes off the current stack are finished: no closed walk
starts at them. -/
def NC (f : String → List String) (V S : List String) : Prop :=
  ∀ u ∈ V, u ∉ S → noCycAt f u

lemma dfs_false (f : String → List String) : ∀ fuel : Nat,
    (∀ node stack visited V',
      dfsAux f fuel node stack visited = some (false, V') →
      NC f visited stack →
      (∀ x ∈ visited, x ∈ V') ∧ node ∈ V' ∧ node ∉ stack ∧ NC f V' stack) ∧
    (∀ ws stack visited V',
      dfsLoop f fuel ws stack visited = some (false, V') →
      NC f visited stack →
      (∀ x ∈ visited, x ∈ V') ∧ (∀ w ∈ ws, w ∈ V' ∧ w ∉ stack) ∧
        NC f V' stack) := by
  intro fuel
  induction fuel with
  | zero =>
    constructor
    · intro node stack visited V' hEq
      rw [dfsAux_zero] at hEq; simp at hEq
    · intro ws stack visited V' hEq hNC
      cases ws with
      | nil =>
        rw [dfsLoop_nil] at hEq
        obtain rfl : visited = V' := by simpa using hEq
        exact ⟨fun x hx => hx, by simp, hNC⟩
      | cons w ws => rw [dfsLoop_cons, dfsAux_zero] at hEq; simp at hEq
  | succ fuel ih =>
    obtain ⟨ihA, ihL⟩ := ih
    have hA : ∀ node stack visited V',
        dfsAux f (fuel + 1) node stack visited = some (false, V') →
        NC f visited stack →
        (∀ x ∈ visited, x ∈ V') ∧ node ∈ V' ∧ node ∉ stack ∧
          NC f V' stack := by
      intro node stack visited V' hEq hNC
      rw [dfsAux_succ] at hEq
      by_cases hmem : node ∈ stack
      · rw [if_pos hmem] at hEq; simp at hEq
      · rw [if_neg hmem] at hEq
        by_cases hvis : node ∈ visited
        · rw [if_pos hvis] at hEq
          obtain rfl : visited = V' := by simpa using hEq
          exact ⟨fun x hx => hx, hvis, hmem, hNC⟩
        · rw [if_neg hvis] at hEq
          have hNC' : NC f (node :: visited) (node :: stack) := by
            intro u hu hus
            rcases List.mem_cons.mp hu with rfl | hu'
            · exact absurd (List.mem_cons_self u stack) hus
            · exact hNC u hu' (fun hc => hus (List.mem_cons_of_mem _ hc))
          obtain ⟨h1, h2, h3⟩ := ihL (f node) (node :: stack) (node :: visited) V' hEq hNC'
          refine ⟨fun x hx => h1 x (List.mem_cons_of_mem _ hx),
            h1 node (List.mem_cons_self _ _), hmem, ?_⟩
          intro u hu hus
          by_cases hun : u = node
          · subst hun
            rintro ⟨l, hc⟩
            cases l with
            | nil =>
              have he : u ∈ f u := by simpa [chain, edgeOf] using hc
              exact (h2 u he).2 (List.mem_cons_self _ _)
            | cons w l' =>
              rw [List.cons_append, chain_cons] at hc
              obtain ⟨he, hc'⟩ := hc
              have hwcyc : ∃ l2, chain (edgeOf f) w (l2 ++ [w]) :=
                ⟨l' ++ [u], chain_extend hc' he⟩
              obtain ⟨hwV, hwS⟩ := h2 w he
              exact h3 w hwV hwS hwcyc
          · exact h3 u hu (by simp [hun, hus])
    refine ⟨hA, ?_⟩
    intro ws
    induction ws with
    | nil =>
      intro stack visited V' hEq hNC
      rw [dfsLoop_nil] at hEq
      obtain rfl : visited = V' := by simpa using hEq
      exact ⟨fun x hx => hx, by simp, hNC⟩
    | cons w ws ihw =>
      intro stack visited V' hEq hNC
      rw [dfsLoop_cons] at hEq
      cases hcall : dfsAux f (fuel + 1) w stack visited with
      | none => rw [hcall] at hEq; simp at hEq
      | some p =>
        obtain ⟨b, v⟩ := p
        cases b with
        | true => rw [hcall] at hEq; simp at hEq
        | false =>
          rw [hcall] at hEq
          obtain ⟨s1, s2, s3, s4⟩ := hA w stack visited v hcall hNC
          obtain ⟨t1, t2, t3⟩ := ihw stack v V' hEq s4
          refine ⟨fun x hx => t1 x (s1 x hx), ?_, t3⟩
          intro x hx
          rcases List.mem_cons.mp hx with rfl | hx'
          · exact ⟨t1 x s2, s3⟩
          · exact t2 x hx'

lemma detect_false (f : String → List String) (fuel : Nat) :
    ∀ ms visited, detectAux f fuel ms visited = some false →
      NC f visited [] → ∀ m ∈ ms, noCycAt f m := by
  intro ms
  induction ms with
  | nil => intro visited _ _ m hm; simp at hm
  | cons m0 ms ih =>
    intro visited h hNC m hm
    simp only [detectAux] at h
    cases hcall : dfsAux f fuel m0 [] visited with
    | none => rw [hcall] at h; simp at h
    | some p =>
      obtain ⟨b, v⟩ := p
      cases b with
      | true => rw [hcall] at h; simp at h
      | false =>
        rw [hcall] at h
        obtain ⟨s1, s2, s3, s4⟩ := (dfs_false f fuel).1 m0 [] visited v hcall hNC
        rcases List.mem_cons.mp hm with rfl | hm'
        · exact s4 m s2 (by simp)
        · exact ih v h s4 m hm'

/-! ## DFS fuel sufficiency -/

lemma filter_length_mono (p q : String → Bool)
    (h : ∀ x, q x = true → p x = true) :
    ∀ l : List String, (l.filter q).length ≤ (l.filter p).length := by
  intro l
  induction l with
  | nil => simp
  | cons a t ih =>
    by_cases hq : q a = true
    · rw [List.filter_cons_of_pos hq, List.filter_cons_of_pos (h a hq)]
      simpa using ih
    · rw [List.filter_cons_of_neg (by simpa using hq)]
      by_cases hp : p a = true
      · rw [List.filter_cons_of_pos hp]
        exact Nat.le_succ_of_le ih
      · rw [List.filter_cons_of_neg (by simpa using hp)]
        exact ih

lemma filter_length_lt (p q : String → Bool)
    (h : ∀ x, q x = true → p x = true) :
    ∀ l : List String, ∀ x ∈ l, p x = true → q x = false →
      (l.filter q).length < (l.filter p).length := by
  intro l
  induction l with
  | nil => intro x hx; simp at hx
  | cons a t ih =>
    intro x hx hp hq
    rcases List.mem_cons.mp hx with rfl | hx'
    · rw [List.filter_cons_of_neg (by simp [hq]), List.filter_cons_of_pos hp]
      exact Nat.lt_succ_of_le (filter_length_mono p q h t)
    · by_cases hqa : q a = true
      · rw [List.filter_cons_of_pos hqa, List.filter_cons_of_pos (h a hqa)]
        simpa using ih x hx' hp hq
      · rw [List.filter_cons_of_neg (by simpa using hqa)]
        have := ih x hx' hp hq
        by_cases hpa : p a = true
        · rw [List.filter_cons_of_pos hpa]
          exact Nat.lt_succ_of_lt this
        · rw [List.filter_cons_of_neg (by simpa using hpa)]
          exact this

/-- The decreasing measure of the DFS: universe nodes not yet on the stack. -/
def offStack (U S : List String) : Nat :=
  (U.dedup.filter fun y => !decide (y ∈ S)).length

lemma offStack_push {U S : List String} {node : String} (hU : node ∈ U)
    (hS : node ∉ S) : offStack U (node :: S) < offStack U S := by
  apply filter_length_lt
  · intro x hx
    simp only [Bool.not_eq_true', decide_eq_false_iff_not, List.mem_cons,
      not_or] at hx ⊢
    exact hx.2
  · exact List.mem_dedup.mpr hU
  · simp [hS]
  · simp

lemma dfs_fuel (f : String → List String) (U : List String)
    (hU : ∀ v w, w ∈ f v → w ∈ U) : ∀ fuel : Nat,
    (∀ node stack visited, node ∈ U → (∀ x ∈ stack, x ∈ U) → stack.Nodup →
      offStack U stack < fuel → dfsAux f fuel node stack visited ≠ none) ∧
    (∀ ws stack visited, (∀ w ∈ ws, w ∈ U) → (∀ x ∈ stack, x ∈ U) →
      stack.Nodup → offStack U stack < fuel →
      dfsLoop f fuel ws stack visited ≠ none) := by
  intro fuel
  induction fuel with
  | zero =>
    constructor
    · intro node stack visited _ _ _ hlt; omega
    · intro ws stack visited _ _ _ hlt; omega
  | succ fuel ih =>
    obtain ⟨ihA, ihL⟩ := ih
    have hA : ∀ node stack visited, node ∈ U → (∀ x ∈ stack, x ∈ U) →
        stack.Nodup → offStack U stack < fuel + 1 →
        dfsAux f (fuel + 1) node stack visited ≠ none := by
      intro node stack visited hn hs hnd hlt
      rw [dfsAux_succ]
      by_cases hmem : node ∈ stack
      · simp [hmem]
      · rw [if_neg hmem]
        by_cases hvis : node ∈ visited
        · simp [hvis]
        · rw [if_neg hvis]
          apply ihL
          · intro w hw; exact hU node w hw
          · intro x hx
            rcases List.mem_cons.mp hx with rfl | hx'
            · exact hn
            · exact hs x hx'
          · exact List.nodup_cons.mpr ⟨hmem, hnd⟩
          · have := offStack_push (S := stack) hn hmem
            omega
    refine ⟨hA, ?_⟩
    intro ws
    induction ws with
    | nil => intro stack visited _ _ _ _; rw [dfsLoop_nil]; simp
    | cons w ws ihw =>
      intro stack visited hws hs hnd hlt
      rw [dfsLoop_cons]
      cases hcall : dfsAux f (fuel + 1) w stack visited with
      | none =>
        exact absurd hcall (hA w stack visited (hws w (by simp)) hs hnd hlt)
      | some p =>
        obtain ⟨b, v⟩ := p
        cases b with
        | true => simp
        | false =>
          exact ihw stack v (fun x hx => hws x (by simp [hx])) hs hnd hlt

lemma detect_fuel (f : String → List String) (U : List String)
    (hU : ∀ v w, w ∈ f v → w ∈ U) (fuel : Nat) :
    ∀ ms visited, (∀ m ∈ ms, m ∈ U) → offStack U [] < fuel →
      detectAux f fuel ms visited ≠ none := by
  intro ms
  induction ms with
  | nil => intro visited _ _; simp [detectAux]
  | cons m ms ih =>
    intro visited hms hlt
    simp only [detectAux]
    cases hcall : dfsAux f fuel m [] visited with
    | none =>
      exact absurd hcall
        ((dfs_fuel f U hU fuel).1 m [] visited (hms m (by simp))
          (by simp) List.nodup_nil hlt)
    | some p =>
      obtain ⟨b, v⟩ := p
      cases b with
      | true => simp
      | false => exact ih v (fun x hx => hms x (by simp [hx])) hlt

/-! ## Correctness of `detect_cycles` -/

lemma adjOf_closed (g : G) : ∀ v w, w ∈ adjOf g v → w ∈ uList g := by
  intro v w hw
  unfold adjOf at hw
  by_cases hv : v ∈ g.modules
  · rw [if_pos hv] at hw
    exact List.mem_append_right _ (List.mem_flatMap.mpr ⟨v, hv, hw⟩)
  · rw [if_neg hv] at hw; simp at hw

lemma offStack_nil (U : List String) : offStack U [] = U.dedup.length := by
  unfold offStack
  simp

lemma detect_cycles_iff (g : G) :
    detect_cycles g = true ↔ ClosedWalk (depEdge g) := by
  have hcong : ∀ a b, edgeOf (adjOf g) a b ↔ depEdge g a b := by
    intro a b
    unfold edgeOf adjOf depEdge
    by_cases h : a ∈ g.modules <;> simp [h]
  rw [← closedWalk_congr hcong]
  have hne : detectAux (adjOf g) (fuelBound g) g.modules [] ≠ none := by
    apply detect_fuel (adjOf g) (uList g) (adjOf_closed g)
    · intro m hm; exact List.mem_append_left _ hm
    · rw [offStack_nil]; unfold fuelBound; omega
  constructor
  · intro h
    unfold detect_cycles at h
    cases hd : detectAux (adjOf g) (fuelBound g) g.modules [] with
    | none => exact absurd hd hne
    | some b =>
      cases b with
      | true => exact detect_sound (adjOf g) (fuelBound g) g.modules [] hd
      | false => rw [hd] at h; simp [Option.getD] at h
  · intro hcw
    cases hd : detectAux (adjOf g) (fuelBound g) g.modules [] with
    | none => exact absurd hd hne
    | some b =>
      cases b with
      | true => unfold detect_cycles; rw [hd]; rfl
      | false =>
        exfalso
        have hnc := detect_false (adjOf g) (fuelBound g) g.modules [] hd
          (by intro u hu; simp at hu)
        obtain ⟨n, l, hc⟩ := hcw
        have hn : n ∈ g.modules := by
          cases hl : l ++ [n] with
          | nil => simp at hl
          | cons w rest =>
            rw [hl, chain_cons] at hc
            have hw : w ∈ adjOf g n := hc.1
            unfold adjOf at hw
            by_cases h : n ∈ g.modules
            · exact h
            · rw [if_neg h] at hw; simp at hw
        exact hnc n hn ⟨l, hc⟩

/-! ## The restricted (active) subgraph -/

lemma activeModules_mem (g : G) (st : Store) (m : String) :
    m ∈ activeModules g st ↔ m ∈ g.modules ∧ st m ≠ some "completed" := by
  unfold activeModules
  rw [List.mem_filter]
  simp

lemma radj_mem (g : G) (st : Store) (d m : String) :
    m ∈ radj g st d ↔
      d ∈ activeModules g st ∧ m ∈ activeModules g st ∧ d ∈ g.deps m := by
  unfold radj
  by_cases hd : d ∈ activeModules g st
  · rw [if_pos hd]
    simp only [List.mem_flatMap, List.mem_map, List.mem_filter]
    constructor
    · rintro ⟨m', hm', x, hx, rfl⟩
      refine ⟨hd, hm', ?_⟩
      simpa [of_decide_eq_true hx.2] using hx.1
    · rintro ⟨_, hm, hdm⟩
      exact ⟨m, hm, d, ⟨hdm, by simp⟩, rfl⟩
  · rw [if_neg hd]
    simp [hd]

lemma chain_mem_active (g : G) (st : Store) :
    ∀ (l : List String) (n : String), chain (edgeOf (radj g st)) n l →
      ∀ x ∈ l, x ∈ activeModules g st := by
  intro l
  induction l with
  | nil => intro n _ x hx; simp at hx
  | cons w ws ih =>
    intro n hc x hx
    rw [chain_cons] at hc
    rcases List.mem_cons.mp hx with rfl | hx'
    · exact ((radj_mem g st n x).mp hc.1).2.1
    · exact ih w hc.2 x hx'

/-! ## Correctness of the memoized longest-path search -/

/-- A correct `longest(node)` result: its path starts at the node, follows the
restricted edges, its length field counts the path nodes, and no chain from
the node is longer. -/
def goodVal (g : G) (st : Store) (n : String) (L : Nat) (p : List String) :
    Prop :=
  ∃ tail, p = n :: tail ∧ chain (edgeOf (radj g st)) n tail ∧
    L = p.length ∧
    ∀ l, chain (edgeOf (radj g st)) n l → l.length + 1 ≤ L

/-- Every memo entry is a correct `longest` result. -/
def MemoOK (g : G) (st : Store) (memo : Memo) : Prop :=
  ∀ n v, List.lookup n memo = some v → goodVal g st n v.1 v.2

/-- The memo only grows: old entries keep their value. -/
def lookupExt (memo memo' : Memo) : Prop :=
  ∀ n v, List.lookup n memo = some v → List.lookup n memo' = some v

lemma lookup_cons (n k : String) (v : Nat × List String) (l : Memo) :
    List.lookup n ((k, v) :: l) = if n = k then some v else List.lookup n l := by
  by_cases h : n = k
  · simp [List.lookup, h]
  · simp [List.lookup, h, beq_eq_false_iff_ne.mpr h]

lemma lookupExt_cons (node : String) (v : Nat × List String)
    (memo memo' : Memo) (hnew : List.lookup node memo = none)
    (hext : lookupExt memo memo') : lookupExt memo ((node, v) :: memo') := by
  intro n w hn
  rw [lookup_cons]
  have hne : n ≠ node := by
    rintro rfl
    rw [hnew] at hn
    exact absurd hn (by simp)
  rw [if_neg hne]
  exact hext n w hn

lemma longestLoop_spec (g : G) (st : Store) (fuel : Nat)
    (hA : ∀ node memo memo' L p,
      longestAux g st fuel node memo = some (memo', L, p) → MemoOK g st memo →
      MemoOK g st memo' ∧ lookupExt memo memo' ∧ goodVal g st node L p) :
    ∀ ws memo bl bp memo' L p,
      longestLoopF (longestAux g st fuel) ws memo bl bp =
        some (memo', L, p) →
      MemoOK g st memo →
      MemoOK g st memo' ∧ lookupExt memo memo' ∧ bl ≤ L ∧
        (∀ w ∈ ws, ∀ l, chain (edgeOf (radj g st)) w l → l.length + 1 ≤ L) ∧
        ((L = bl ∧ p = bp) ∨ ∃ w ∈ ws, goodVal g st w L p) := by
  intro ws
  induction ws with
  | nil =>
    intro memo bl bp memo' L p hEq hM
    simp only [longestLoopF, Option.some.injEq, Prod.mk.injEq] at hEq
    obtain ⟨rfl, rfl, rfl⟩ := hEq
    exact ⟨hM, fun n v h => h, le_refl _, by simp, Or.inl ⟨rfl, rfl⟩⟩
  | cons w ws ih =>
    intro memo bl bp memo' L p hEq hM
    simp only [longestLoopF] at hEq
    cases hcall : longestAux g st fuel w memo with
    | none => rw [hcall] at hEq; simp at hEq
    | some t =>
      obtain ⟨memo1, ln, p1⟩ := t
      rw [hcall] at hEq
      dsimp only at hEq
      obtain ⟨hM1, hext1, hgv⟩ := hA w memo memo1 ln p1 hcall hM
      obtain ⟨tail1, hp1, hc1, hlen1, hub1⟩ := hgv
      by_cases hlt : bl < ln
      · rw [if_pos hlt] at hEq
        obtain ⟨hM2, hext2, hle2, hub2, hres2⟩ :=
          ih memo1 ln p1 memo' L p hEq hM1
        refine ⟨hM2, fun n v h => hext2 n v (hext1 n v h), by omega, ?_, ?_⟩
        · intro u hu l hc
          rcases List.mem_cons.mp hu with rfl | hu'
          · have := hub1 l hc; omega
          · exact hub2 u hu' l hc
        · rcases hres2 with ⟨rfl, rfl⟩ | ⟨w', hw', hg⟩
          · exact Or.inr ⟨w, by simp, tail1, hp1, hc1, hlen1, hub1⟩
          · exact Or.inr ⟨w', by simp [hw'], hg⟩
      · rw [if_neg hlt] at hEq
        obtain ⟨hM2, hext2, hle2, hub2, hres2⟩ :=
          ih memo1 bl bp memo' L p hEq hM1
        refine ⟨hM2, fun n v h => hext2 n v (hext1 n v h), hle2, ?_, ?_⟩
        · intro u hu l hc
          rcases List.mem_cons.mp hu with rfl | hu'
          · have := hub1 l hc; omega
          · exact hub2 u hu' l hc
        · rcases hres2 with ⟨h1, h2⟩ | ⟨w', hw', hg⟩
          · exact Or.inl ⟨h1, h2⟩
          · exact Or.inr ⟨w', by simp [hw'], hg⟩

lemma longest_spec (g : G) (st : Store) : ∀ fuel node memo memo' L p,
    longestAux g st fuel node memo = some (memo', L, p) → MemoOK g st memo →
    MemoOK g st memo' ∧ lookupExt memo memo' ∧ goodVal g st node L p := by
  intro fuel
  induction fuel with
  | zero => intro node memo memo' L p hEq _; simp [longestAux] at hEq
  | succ fuel ih =>
    intro node memo memo' L p hEq hM
    simp only [longestAux] at hEq
    cases hlk : List.lookup node memo with
    | some v =>
      rw [hlk] at hEq
      obtain ⟨v1, v2⟩ := v
      simp only [Option.some.injEq, Prod.mk.injEq] at hEq
      obtain ⟨rfl, rfl, rfl⟩ := hEq
      exact ⟨hM, fun n w h => h, hM node (v1, v2) hlk⟩
    | none =>
      rw [hlk] at hEq
      cases hr : radj g st node with
      | nil =>
        rw [hr] at hEq
        simp only [Option.some.injEq, Prod.mk.injEq] at hEq
        obtain ⟨rfl, rfl, rfl⟩ := hEq
        have hgv : goodVal g st node 1 [node] := by
          refine ⟨[], rfl, trivial, rfl, ?_⟩
          intro l hc
          cases l with
          | nil => simp
          | cons u l' =>
            rw [chain_cons] at hc
            have hu : u ∈ radj g st node := hc.1
            rw [hr] at hu
            simp at hu
        refine ⟨?_, lookupExt_cons node (1, [node]) memo memo hlk
          (fun n v h => h), hgv⟩
        intro n v h
        rw [lookup_cons] at h
        by_cases hn : n = node
        · rw [if_pos hn] at h
          obtain rfl : (1, [node]) = v := by simpa using h
          subst hn
          exact hgv
        · rw [if_neg hn] at h
          exact hM n v h
      | cons w ws =>
        rw [hr] at hEq
        dsimp only at hEq
        cases hloop : longestLoopF (longestAux g st fuel) (w :: ws) memo 0 []
          with
        | none => rw [hloop] at hEq; simp at hEq
        | some t =>
          obtain ⟨memo1, bl, bp⟩ := t
          rw [hloop] at hEq
          simp only [Option.some.injEq, Prod.mk.injEq] at hEq
          obtain ⟨rfl, rfl, rfl⟩ := hEq
          obtain ⟨hM1, hext1, hble, hub, hres⟩ :=
            longestLoop_spec g st fuel ih (w :: ws) memo 0 [] memo1 bl bp
              hloop hM
          have hbl1 : 1 ≤ bl := hub w (by simp) [] trivial
          rcases hres with ⟨h0, _⟩ | ⟨w', hw', hgv'⟩
          · omega
          · obtain ⟨tail', hp', hc', hlen', hub'⟩ := hgv'
            have hEnode : edgeOf (radj g st) node w' := by
              show w' ∈ radj g st node
              rw [hr]
              exact hw'
            have hgv : goodVal g st node (bl + 1) (node :: bp) := by
              refine ⟨bp, rfl, ?_, ?_, ?_⟩
              · rw [hp', chain_cons]
                exact ⟨hEnode, hc'⟩
              · simp only [List.length_cons]
                omega
              · intro l hc
                cases l with
                | nil => simp
                | cons u l2 =>
                  rw [chain_cons] at hc
                  have hu : u ∈ radj g st node := hc.1
                  rw [hr] at hu
                  have := hub u hu l2 hc.2
                  simp only [List.length_cons]
                  omega
            refine ⟨?_, lookupExt_cons node (bl + 1, node :: bp) memo memo1
              hlk hext1, hgv⟩
            intro n v h
            rw [lookup_cons] at h
            by_cases hn : n = node
            · rw [if_pos hn] at h
              obtain rfl : (bl + 1, node :: bp) = v := by simpa using h
              subst hn
              exact hgv
            · rw [if_neg hn] at h
              exact hM1 n v h

/-- A correct overall critical-path result: either the empty result, or a
chain through the active subgraph whose length field counts its nodes. -/
def bestOK (g : G) (st : Store) (L : Nat) (p : List String) : Prop :=
  (L = 0 ∧ p = []) ∨
    ∃ n tail, n ∈ activeModules g st ∧ p = n :: tail ∧
      chain (edgeOf (radj g st)) n tail ∧ L = p.length

lemma MemoOK_nil (g : G) (st : Store) : MemoOK g st [] := by
  intro n v h
  simp [List.lookup] at h

lemma critLoop_spec (g : G) (st : Store) :
    ∀ ns memo bestL bestP, MemoOK g st memo → bestOK g st bestL bestP →
      (∀ n ∈ ns, n ∈ activeModules g st) →
      ∀ L p, critLoop g st ns memo (bestL, bestP) = some (L, p) →
        bestOK g st L p ∧ bestL ≤ L ∧
          (∀ n ∈ ns, ∀ l, chain (edgeOf (radj g st)) n l →
            l.length + 1 ≤ L) := by
  intro ns
  induction ns with
  | nil =>
    intro memo bestL bestP hM hbest _ L p hEq
    simp only [critLoop, Option.some.injEq, Prod.mk.injEq] at hEq
    obtain ⟨rfl, rfl⟩ := hEq
    exact ⟨hbest, le_refl _, by simp⟩
  | cons n ns ih =>
    intro memo bestL bestP hM hbest hns L p hEq
    simp only [critLoop] at hEq
    cases hcall : longestAux g st (fuelC g st) n memo with
    | none => rw [hcall] at hEq; simp at hEq
    | some t =>
      obtain ⟨memo1, ln, p1⟩ := t
      rw [hcall] at hEq
      dsimp only at hEq
      obtain ⟨hM1, _, hgv⟩ := longest_spec g st (fuelC g st) n memo memo1
        ln p1 hcall hM
      obtain ⟨tail1, hp1, hc1, hlen1, hub1⟩ := hgv
      by_cases hlt : bestL < ln
      · rw [if_pos hlt] at hEq
        have hbest1 : bestOK g st ln p1 :=
          Or.inr ⟨n, tail1, hns n (by simp), hp1, hc1, hlen1⟩
        obtain ⟨hb2, hle2, hub2⟩ :=
          ih memo1 ln p1 hM1 hbest1 (fun x hx => hns x (by simp [hx])) L p hEq
        refine ⟨hb2, by omega, ?_⟩
        intro u hu l hc
        rcases List.mem_cons.mp hu with rfl | hu'
        · have := hub1 l hc; omega
        · exact hub2 u hu' l hc
      · rw [if_neg hlt] at hEq
        obtain ⟨hb2, hle2, hub2⟩ :=
          ih memo1 bestL bestP hM1 hbest (fun x hx => hns x (by simp [hx]))
            L p hEq
        refine ⟨hb2, hle2, ?_⟩
        intro u hu l hc
        rcases List.mem_cons.mp hu with rfl | hu'
        · have := hub1 l hc; omega
        · exact hub2 u hu' l hc

/-! ## Fuel sufficiency for the longest-path search -/

lemma longestLoop_fuel (g : G) (st : Store) (fuel : Nat)
    (hA : ∀ node memo,
      (∀ l, chain (edgeOf (radj g st)) node l → l.length + 1 ≤ fuel) →
      longestAux g st fuel node memo ≠ none) :
    ∀ ws memo bl bp,
      (∀ w ∈ ws, ∀ l, chain (edgeOf (radj g st)) w l →
        l.length + 1 ≤ fuel) →
      longestLoopF (longestAux g st fuel) ws memo bl bp ≠ none := by
  intro ws
  induction ws with
  | nil => intro memo bl bp _; simp [longestLoopF]
  | cons w ws ih =>
    intro memo bl bp hws
    simp only [longestLoopF]
    cases hcall : longestAux g st fuel w memo with
    | none => exact absurd hcall (hA w memo (hws w (by simp)))
    | some t =>
      obtain ⟨memo1, ln, p1⟩ := t
      dsimp only
      by_cases hlt : bl < ln
      · rw [if_pos hlt]
        exact ih memo1 ln p1 (fun x hx => hws x (by simp [hx]))
      · rw [if_neg hlt]
        exact ih memo1 bl bp (fun x hx => hws x (by simp [hx]))

lemma longest_fuel (g : G) (st : Store) : ∀ fuel node memo,
    (∀ l, chain (edgeOf (radj g st)) node l → l.length + 1 ≤ fuel) →
    longestAux g st fuel node memo ≠ none := by
  intro fuel
  induction fuel with
  | zero =>
    intro node memo hb
    exact absurd (hb [] trivial) (by omega)
  | succ fuel ih =>
    intro node memo hb
    simp only [longestAux]
    cases hlk : List.lookup node memo with
    | some v => simp
    | none =>
      dsimp only
      cases hr : radj g st node with
      | nil => simp
      | cons w ws =>
        dsimp only
        have hloop : longestLoopF (longestAux g st fuel) (w :: ws) memo 0 []
            ≠ none := by
          apply longestLoop_fuel g st fuel ih
          intro u hu l hc
          have hE : edgeOf (radj g st) node u := by
            show u ∈ radj g st node
            rw [hr]
            exact hu
          have hchain : chain (edgeOf (radj g st)) node (u :: l) :=
            chain_cons.mpr ⟨hE, hc⟩
          have := hb (u :: l) hchain
          simp only [List.length_cons] at this
          omega
        cases hl : longestLoopF (longestAux g st fuel) (w :: ws) memo 0 []
          with
        | none => exact absurd hl hloop
        | some t => obtain ⟨m1, bl, bp⟩ := t; simp

lemma critLoop_fuel (g : G) (st : Store) :
    ∀ ns memo best,
      (∀ n ∈ ns, ∀ l, chain (edgeOf (radj g st)) n l →
        l.length + 1 ≤ fuelC g st) →
      critLoop g st ns memo best ≠ none := by
  intro ns
  induction ns with
  | nil => intro memo best _; simp [critLoop]
  | cons n ns ih =>
    intro memo best hns
    simp only [critLoop]
    cases hcall : longestAux g st (fuelC g st) n memo with
    | none =>
      exact absurd hcall (longest_fuel g st (fuelC g st) n memo
        (hns n (by simp)))
    | some t =>
      obtain ⟨memo1, ln, p1⟩ := t
      dsimp only
      exact ih memo1 _ (fun x hx => hns x (by simp [hx]))

/-! ## Acyclicity of the active subgraph bounds every chain -/

lemma nodup_length_le (l L : List String) (hn : l.Nodup)
    (hsub : ∀ x ∈ l, x ∈ L) : l.length ≤ L.length := by
  have h1 : l.toFinset.card = l.length := List.toFinset_card_of_nodup hn
  have h2 : l.toFinset ⊆ L.toFinset := fun x hx =>
    List.mem_toFinset.mpr (hsub x (List.mem_toFinset.mp hx))
  have h3 := Finset.card_le_card h2
  have h4 : L.toFinset.card ≤ L.length := L.toFinset_card_le
  omega

lemma exists_dup_split :
    ∀ l : List String, ¬ l.Nodup →
      ∃ x l1 l2 l3, l = l1 ++ x :: (l2 ++ x :: l3) := by
  intro l
  induction l with
  | nil => intro h; exact absurd List.nodup_nil h
  | cons a t ih =>
    intro h
    by_cases ha : a ∈ t
    · obtain ⟨s, u, rfl⟩ := List.append_of_mem ha
      exact ⟨a, [], s, u, by simp⟩
    · have hnt : ¬ t.Nodup := fun hnd => h (List.nodup_cons.mpr ⟨ha, hnd⟩)
      obtain ⟨x, l1, l2, l3, rfl⟩ := ih hnt
      exact ⟨x, a :: l1, l2, l3, by simp⟩

lemma chain_dup_closedWalk {E : String → String → Prop} :
    ∀ n l, chain E n l → ¬ (n :: l).Nodup → ClosedWalk E := by
  intro n l hc hnd
  obtain ⟨x, l1, l2, l3, hsplit⟩ := exists_dup_split _ hnd
  cases l1 with
  | nil =>
    simp only [List.nil_append] at hsplit
    obtain ⟨rfl, rfl⟩ : n = x ∧ l = l2 ++ x :: l3 := by
      have h1 := List.head_eq_of_cons_eq hsplit
      have h2 := List.tail_eq_of_cons_eq hsplit
      exact ⟨h1, by simpa using h2⟩
    exact ⟨n, l2, (chain_split hc).2⟩
  | cons b l1' =>
    obtain ⟨rfl, hl⟩ : n = b ∧ l = l1' ++ x :: (l2 ++ x :: l3) := by
      rw [List.cons_append] at hsplit
      have h1 := List.head_eq_of_cons_eq hsplit
      have h2 := List.tail_eq_of_cons_eq hsplit
      exact ⟨h1, by simpa using h2⟩
    rw [hl] at hc
    have hcx : chain E x (l2 ++ x :: l3) := (chain_split hc).1
    exact ⟨x, l2, (chain_split hcx).2⟩

lemma acyc_chain_bound (g : G) (st : Store)
    (hac : ¬ ClosedWalk (edgeOf (radj g st))) :
    ∀ n l, chain (edgeOf (radj g st)) n l →
      l.length + 1 ≤ fuelC g st := by
  intro n l hc
  unfold fuelC
  by_cases hnd : (n :: l).Nodup
  · have hsub : ∀ x ∈ l, x ∈ activeModules g st :=
      chain_mem_active g st l n hc
    have hl : l.Nodup := (List.nodup_cons.mp hnd).2
    have := nodup_length_le l (activeModules g st) hl hsub
    omega
  · exact absurd (chain_dup_closedWalk n l hc hnd) hac

/-- Main correctness of `compute_operational_critical_path` on an acyclic
active subgraph: it terminates, its result is a chain of the restricted
relation counted by its length field, and no chain is longer. -/
lemma crit_correct (g : G) (st : Store)
    (hac : ¬ ClosedWalk (edgeOf (radj g st))) :
    ∃ L p, compute_operational_critical_path g st = some (L, p) ∧
      bestOK g st L p ∧
      ∀ n ∈ activeModules g st, ∀ l, chain (edgeOf (radj g st)) n l →
        l.length + 1 ≤ L := by
  have hb := acyc_chain_bound g st hac
  have hnone : critLoop g st (activeModules g st) [] (0, []) ≠ none :=
    critLoop_fuel g st (activeModules g st) [] (0, [])
      (fun n _ l hc => hb n l hc)
  cases hr : critLoop g st (activeModules g st) [] (0, []) with
  | none => exact absurd hr hnone
  | some r =>
    obtain ⟨L, p⟩ := r
    obtain ⟨hbest, _, hub⟩ := critLoop_spec g st (activeModules g st) [] 0 []
      (MemoOK_nil g st) (Or.inl ⟨rfl, rfl⟩) (fun x hx => hx) L p hr
    exact ⟨L, p, hr, hbest, hub⟩

/-! ## Readiness and lifecycle characterisations -/

/-- The semantic readiness condition of the spec: pending, with every declared
dependency completed. -/
def readyCond (g : G) (st : Store) (m : String) : Prop :=
  st m = some "pending" ∧ ∀ d ∈ g.deps m, st d = some "completed"

lemma compute_next_steps_mem (g : G) (st : Store) (m : String) :
    m ∈ compute_next_steps g st ↔ m ∈ g.modules ∧ readyCond g st m := by
  unfold compute_next_steps readyCond
  rw [List.mem_filter]
  simp [List.all_eq_true]

lemma compute_next_steps_ne_nil (g : G) (st : Store) :
    compute_next_steps g st ≠ [] ↔ ∃ m ∈ g.modules, readyCond g st m := by
  constructor
  · intro h
    cases hn : compute_next_steps g st with
    | nil => exact absurd hn h
    | cons a t =>
      have : a ∈ compute_next_steps g st := by rw [hn]; simp
      obtain ⟨h1, h2⟩ := (compute_next_steps_mem g st a).mp this
      exact ⟨a, h1, h2⟩
  · rintro ⟨m, h1, h2⟩ hnil
    have : m ∈ compute_next_steps g st :=
      (compute_next_steps_mem g st m).mpr ⟨h1, h2⟩
    rw [hnil] at this
    simp at this

/-- The "all modules completed" condition of the lifecycle evaluator. -/
def allCompleted (g : G) (st : Store) : Prop :=
  g.modules ≠ [] ∧ ∀ m ∈ g.modules, st m = some "completed"

lemma allCompleted_bool (g : G) (st : Store) :
    (!g.modules.isEmpty &&
      g.modules.all fun m => decide (st m = some "completed")) = true ↔
    allCompleted g st := by
  unfold allCompleted
  simp [List.all_eq_true, List.isEmpty_iff]

lemma evaluate_blocked (g : G) (st : Store) (hc : detect_cycles g = true) :
    evaluate_project_state g st = "blocked_by_cycle" := by
  unfold evaluate_project_state
  rw [if_pos hc]

lemma evaluate_completed (g : G) (st : Store)
    (hc : detect_cycles g = false) (hall : allCompleted g st) :
    evaluate_project_state g st = "completed" := by
  unfold evaluate_project_state
  rw [hc]
  simp only [Bool.false_eq_true, if_false]
  rw [if_pos ((allCompleted_bool g st).mpr hall)]

lemma evaluate_active (g : G) (st : Store)
    (hc : detect_cycles g = false) (hnall : ¬ allCompleted g st)
    (hready : compute_next_steps g st ≠ []) :
    evaluate_project_state g st = "active" := by
  unfold evaluate_project_state
  rw [hc]
  simp only [Bool.false_eq_true, if_false]
  rw [if_neg (fun h => hnall ((allCompleted_bool g st).mp h)),
    if_pos (by simpa using hready)]

lemma evaluate_stalled (g : G) (st : Store)
    (hc : detect_cycles g = false) (hnall : ¬ allCompleted g st)
    (hnr : compute_next_steps g st = []) :
    evaluate_project_state g st = "stalled" := by
  unfold evaluate_project_state
  rw [hc]
  simp only [Bool.false_eq_true, if_false]
  rw [if_neg (fun h => hnall ((allCompleted_bool g st).mp h)),
    if_neg (by simp [hnr])]

/-! ## The restricted graph as a `G`, for decidable acyclicity checks -/

/-- The active subgraph packaged as a graph value: its module list is the
active list and its adjacency is the reversed restricted adjacency. -/
def restrictedG (g : G) (st : Store) : G :=
  ⟨activeModules g st, radj g st⟩

lemma closedWalk_radj_iff_detect (g : G) (st : Store) :
    ClosedWalk (edgeOf (radj g st)) ↔
      detect_cycles (restrictedG g st) = true := by
  rw [detect_cycles_iff]
  apply closedWalk_congr
  intro a b
  unfold edgeOf depEdge restrictedG
  simp only
  constructor
  · intro h
    exact ⟨((radj_mem g st a b).mp h).1, h⟩
  · intro h
    exact h.2

/-! ## Enumeration-order sensitivity infrastructure -/

lemma compute_next_steps_sublist (g : G) (st : Store) :
    (compute_next_steps g st).Sublist g.modules := by
  unfold compute_next_steps
  exact List.filter_sublist _

lemma compute_next_steps_perm (g1 g2 : G) (st : Store)
    (hd : g1.deps = g2.deps) (hp : g1.modules.Perm g2.modules) :
    (compute_next_steps g1 st).Perm (compute_next_steps g2 st) := by
  unfold compute_next_steps
  rw [hd]
  exact hp.filter _

lemma activeModules_perm (g1 g2 : G) (st : Store)
    (hp : g1.modules.Perm g2.modules) :
    (activeModules g1 st).Perm (activeModules g2 st) := by
  unfold activeModules
  exact hp.filter _

lemma radj_edge_iff (g1 g2 : G) (st : Store) (hd : g1.deps = g2.deps)
    (hp : g1.modules.Perm g2.modules) (a b : String) :
    edgeOf (radj g1 st) a b ↔ edgeOf (radj g2 st) a b := by
  unfold edgeOf
  rw [radj_mem, radj_mem, hd]
  have h1 := (activeModules_perm g1 g2 st hp).mem_iff (a := a)
  have h2 := (activeModules_perm g1 g2 st hp).mem_iff (a := b)
  tauto

lemma crit_length_eq (g1 g2 : G) (st : Store) (hd : g1.deps = g2.deps)
    (hp : g1.modules.Perm g2.modules)
    (hac : ¬ ClosedWalk (edgeOf (radj g1 st))) :
    ∃ L p1 p2, compute_operational_critical_path g1 st = some (L, p1) ∧
      compute_operational_critical_path g2 st = some (L, p2) := by
  have hedge := radj_edge_iff g1 g2 st hd hp
  have hac2 : ¬ ClosedWalk (edgeOf (radj g2 st)) := by
    rw [← closedWalk_congr hedge]
    exact hac
  obtain ⟨L1, p1, he1, hb1, hub1⟩ := crit_correct g1 st hac
  obtain ⟨L2, p2, he2, hb2, hub2⟩ := crit_correct g2 st hac2
  have hle12 : L1 ≤ L2 := by
    rcases hb1 with ⟨rfl, _⟩ | ⟨n, tail, hn, hpth, hc, hlen⟩
    · omega
    · have hc2 : chain (edgeOf (radj g2 st)) n tail :=
        (chain_congr hedge tail n).mp hc
      have hn2 : n ∈ activeModules g2 st :=
        ((activeModules_perm g1 g2 st hp).mem_iff).mp hn
      have := hub2 n hn2 tail hc2
      rw [hlen, hpth]
      simp only [List.length_cons]
      omega
  have hle21 : L2 ≤ L1 := by
    rcases hb2 with ⟨rfl, _⟩ | ⟨n, tail, hn, hpth, hc, hlen⟩
    · omega
    · have hc1 : chain (edgeOf (radj g1 st)) n tail :=
        (chain_congr hedge tail n).mpr hc
      have hn1 : n ∈ activeModules g1 st :=
        ((activeModules_perm g1 g2 st hp).mem_iff).mpr hn
      have := hub1 n hn1 tail hc1
      rw [hlen, hpth]
      simp only [List.length_cons]
      omega
  obtain rfl : L1 = L2 := by omega
  exact ⟨L1, p1, p2, he1, he2⟩

/-! ## Snapshot membership -/

lemma insertStr_mem (x a : String) :
    ∀ l : List String, x ∈ insertStr a l ↔ x = a ∨ x ∈ l := by
  intro l
  induction l with
  | nil => simp [insertStr]
  | cons b t ih =>
    unfold insertStr
    by_cases h : strLe a b = true
    · rw [if_pos h]
      simp only [List.mem_cons]
    · rw [if_neg h]
      simp only [List.mem_cons, ih]
      tauto

lemma sortStrs_mem (x : String) :
    ∀ l : List String, x ∈ sortStrs l ↔ x ∈ l := by
  intro l
  induction l with
  | nil => simp [sortStrs]
  | cons a t ih =>
    unfold sortStrs
    rw [insertStr_mem]
    simp [ih]

lemma snapshot_module_mem (g : G) (st : Store) (x : String) :
    (∃ e ∈ get_status_snapshot g st, e.module = x) ↔ x ∈ g.modules := by
  unfold get_status_snapshot
  constructor
  · rintro ⟨e, he, rfl⟩
    obtain ⟨m, hm, rfl⟩ := List.mem_map.mp he
    exact (sortStrs_mem m g.modules).mp hm
  · intro hx
    exact ⟨⟨x, (st x).getD "unset"⟩,
      List.mem_map.mpr ⟨x, (sortStrs_mem x g.modules).mpr hx, rfl⟩, rfl⟩

lemma closedWalk_modules_ne_nil (g : G) (h : ClosedWalk (depEdge g)) :
    g.modules ≠ [] := by
  obtain ⟨n, l, hc⟩ := h
  cases hl : l ++ [n] with
  | nil => simp at hl
  | cons w rest =>
    rw [hl, chain_cons] at hc
    exact List.ne_nil_of_mem hc.1.1

instance (g : G) (st : Store) : Decidable (allCompleted g st) := by
  unfold allCompleted
  infer_instance

instance (g : G) (st : Store) (m : String) : Decidable (readyCond g st m) := by
  unfold readyCond
  infer_instance

/-! ## Fixtures -/

/-- Fixture: `A` depends on itself (a cycle), `B` is independent. -/
def gSelfB : G := ⟨["A", "B"], fun m => if m = "A" then ["A"] else []⟩

/-- Fixture: a single module depending on itself. -/
def gSelf : G := ⟨["A"], fun m => if m = "A" then ["A"] else []⟩

/-- Fixture: `B` depends on `A`, `C` depends on `B`. -/
def gChain : G :=
  ⟨["A", "B", "C"],
   fun m => if m = "B" then ["A"] else if m = "C" then ["B"] else []⟩

/-- Fixture: two independent modules, enumerated `A` then `B`. -/
def gAB : G := ⟨["A", "B"], fun _ => []⟩

/-- Fixture: the same two modules, enumerated `B` then `A`. -/
def gBA : G := ⟨["B", "A"], fun _ => []⟩

/-- Fixture: a graph knowing only module `A`, with no dependencies. -/
def gOnlyA : G := ⟨["A"], fun _ => []⟩

/-- Every status pending. -/
def stAllPending : Store := fun _ => some "pending"

/-- `A` completed, everything else pending. -/
def stAdone : Store := fun m =>
  if m = "A" then some "completed" else some "pending"

/-- The empty store. -/
def stEmpty : Store := fun _ => none

/-! ## Claims -/

/-- Claim C1: `evaluate_project_state` returns exactly one of
`blocked_by_cycle`, `completed`, `active`, `stalled`, chosen in priority
order: any cycle gives `blocked_by_cycle`; otherwise a non-empty module set
with every status completed gives `completed`; otherwise a non-empty ready
set gives `active`; otherwise `stalled`. -/
theorem claim_C1 (g : G) (st : Store) :
    (evaluate_project_state g st = "blocked_by_cycle" ∨
      evaluate_project_state g st = "completed" ∨
      evaluate_project_state g st = "active" ∨
      evaluate_project_state g st = "stalled") ∧
    (ClosedWalk (depEdge g) →
      evaluate_project_state g st = "blocked_by_cycle") ∧
    (¬ ClosedWalk (depEdge g) → allCompleted g st →
      evaluate_project_state g st = "completed") ∧
    (¬ ClosedWalk (depEdge g) → ¬ allCompleted g st →
      (∃ m ∈ g.modules, readyCond g st m) →
      evaluate_project_state g st = "active") ∧
    (¬ ClosedWalk (depEdge g) → ¬ allCompleted g st →
      ¬ (∃ m ∈ g.modules, readyCond g st m) →
      evaluate_project_state g st = "stalled") := by
  cases hc : detect_cycles g with
  | true =>
    have hcw : ClosedWalk (depEdge g) := (detect_cycles_iff g).mp hc
    have hb := evaluate_blocked g st hc
    exact ⟨Or.inl hb, fun _ => hb, fun hn _ => absurd hcw hn,
      fun hn _ _ => absurd hcw hn, fun hn _ _ => absurd hcw hn⟩
  | false =>
    have hncw : ¬ ClosedWalk (depEdge g) := fun hcw => by
      rw [(detect_cycles_iff g).mpr hcw] at hc
      exact absurd hc (by simp)
    by_cases hall : allCompleted g st
    · have he := evaluate_completed g st hc hall
      exact ⟨Or.inr (Or.inl he), fun hcw => absurd hcw hncw,
        fun _ _ => he, fun _ hn _ => absurd hall hn,
        fun _ hn _ => absurd hall hn⟩
    · by_cases hready : ∃ m ∈ g.modules, readyCond g st m
      · have hne : compute_next_steps g st ≠ [] :=
          (compute_next_steps_ne_nil g st).mpr hready
        have he := evaluate_active g st hc hall hne
        exact ⟨Or.inr (Or.inr (Or.inl he)), fun hcw => absurd hcw hncw,
          fun _ h => absurd h hall, fun _ _ _ => he,
          fun _ _ hn => absurd hready hn⟩
      · have hnil : compute_next_steps g st = [] := by
          by_contra hne
          exact hready ((compute_next_steps_ne_nil g st).mp hne)
        have he := evaluate_stalled g st hc hall hnil
        exact ⟨Or.inr (Or.inr (Or.inr he)), fun hcw => absurd hcw hncw,
          fun _ h => absurd h hall, fun _ _ h => absurd h hready,
          fun _ _ _ => he⟩

/-- Witness for C1 at concrete fixtures: the active and blocked branches. -/
theorem claim_C1_witness :
    evaluate_project_state gChain stAdone = "active" ∧
    evaluate_project_state gSelfB stAllPending = "blocked_by_cycle" := by
  constructor
  · have hncw : ¬ ClosedWalk (depEdge gChain) := fun hcw => by
      have h := (detect_cycles_iff gChain).mpr hcw
      rw [show detect_cycles gChain = false from by decide] at h
      exact absurd h (by simp)
    exact (claim_C1 gChain stAdone).2.2.2.1 hncw (by decide) (by decide)
  · exact (claim_C1 gSelfB stAllPending).2.1
      ((detect_cycles_iff gSelfB).mp (by decide))

/-- Claim C2 (code bug): with a cycle among the non-completed modules the
longest-path recursion of `compute_operational_critical_path` never
terminates — no amount of fuel produces a result — and the MCP tool calls it
with no acyclicity guard, while the lifecycle evaluator itself would have
reported the cycle. -/
theorem claim_C2 :
    detect_cycles gSelf = true ∧
    (∀ fuel, longestAux gSelf stAllPending fuel "A" [] = none) ∧
    compute_operational_critical_path gSelf stAllPending = none ∧
    (tools_call gSelf stAllPending "compute_operational_critical_path"
      none none).1 = ToolResult.okCrit none ∧
    evaluate_project_state gSelf stAllPending = "blocked_by_cycle" := by
  have hr : radj gSelf stAllPending "A" = ["A"] := by decide
  have hdiv : ∀ fuel, longestAux gSelf stAllPending fuel "A" [] = none := by
    intro fuel
    induction fuel with
    | zero => rfl
    | succ fuel ih =>
      simp only [longestAux, List.lookup, hr, longestLoopF, ih]
  have hcrit : compute_operational_critical_path gSelf stAllPending = none := by
    have ha : activeModules gSelf stAllPending = ["A"] := by decide
    unfold compute_operational_critical_path
    rw [ha]
    simp only [critLoop, hdiv (fuelC gSelf stAllPending)]
  refine ⟨by decide, hdiv, hcrit, ?_, by decide⟩
  rw [show (tools_call gSelf stAllPending "compute_operational_critical_path"
    none none).1 =
    ToolResult.okCrit (compute_operational_critical_path gSelf stAllPending)
    from rfl, hcrit]

/-- Claim C3 (code bug): the `update_module_status` tool performs no
validation of the status value against the canonical enumeration declared in
its own input schema: a status outside
`{pending, inProgress, completed}` is persisted and acknowledged. -/
theorem claim_C3 :
    ("bogus" ≠ "pending" ∧ "bogus" ≠ "inProgress" ∧
      "bogus" ≠ "completed") ∧
    stEmpty "A" = none ∧
    tools_call gOnlyA stEmpty "update_module_status" (some "A")
        (some "bogus") =
      (ToolResult.okText "Status updated",
        set_db_status stEmpty "A" "bogus") ∧
    (tools_call gOnlyA stEmpty "update_module_status" (some "A")
        (some "bogus")).2 "A" = some "bogus" := by
  exact ⟨by decide, rfl, rfl, rfl⟩

/-- Claim C4: `detect_cycles` is true exactly when the dependency relation
has a non-empty closed walk; a self-dependency in particular is reported. -/
theorem claim_C4 :
    (∀ g : G, detect_cycles g = true ↔ ClosedWalk (depEdge g)) ∧
    (∀ g : G, ∀ m ∈ g.modules, m ∈ g.deps m → detect_cycles g = true) := by
  refine ⟨detect_cycles_iff, ?_⟩
  intro g m hm hdep
  exact (detect_cycles_iff g).mpr ⟨m, [], by
    rw [List.nil_append]
    exact chain_cons.mpr ⟨⟨hm, hdep⟩, trivial⟩⟩

/-- Witness for C4: the self-loop fixture is cyclic, the chain fixture is
acyclic, both directions obtained through the theorem. -/
theorem claim_C4_witness :
    detect_cycles gSelfB = true ∧ ClosedWalk (depEdge gSelfB) ∧
    ¬ ClosedWalk (depEdge gChain) := by
  refine ⟨claim_C4.2 gSelfB "A" (by decide) (by decide),
    (claim_C4.1 gSelfB).mp (by decide), ?_⟩
  intro hcw
  have h := (claim_C4.1 gChain).mpr hcw
  rw [show detect_cycles gChain = false from by decide] at h
  exact absurd h (by simp)

/-- Claim C5: a module is in `compute_next_steps` iff it is a graph module
whose status is pending and all of whose declared dependencies are completed;
a pending module without dependencies is included, and one with an
uncompleted or unset dependency is excluded. -/
theorem claim_C5 (g : G) (st : Store) :
    (∀ m, m ∈ compute_next_steps g st ↔
      m ∈ g.modules ∧ st m = some "pending" ∧
        ∀ d ∈ g.deps m, st d = some "completed") ∧
    (∀ m ∈ g.modules, st m = some "pending" → g.deps m = [] →
      m ∈ compute_next_steps g st) ∧
    (∀ m d, d ∈ g.deps m → st d ≠ some "completed" →
      m ∉ compute_next_steps g st) := by
  refine ⟨fun m => compute_next_steps_mem g st m, ?_, ?_⟩
  · intro m hm hp hd
    exact (compute_next_steps_mem g st m).mpr ⟨hm, hp, by simp [hd]⟩
  · intro m d hd hnc hmem
    obtain ⟨_, _, hall⟩ := (compute_next_steps_mem g st m).mp hmem
    exact hnc (hall d hd)

/-- Witness for C5 at the chain fixture: `B` is ready, `C` is blocked by the
uncompleted `B`. -/
theorem claim_C5_witness :
    "B" ∈ compute_next_steps gChain stAdone ∧
    "C" ∉ compute_next_steps gChain stAdone := by
  constructor
  · exact ((claim_C5 gChain stAdone).1 "B").mpr (by decide)
  · exact (claim_C5 gChain stAdone).2.2 "C" "B" (by decide) (by decide)

/-- Counterexample for C6: on a graph with a self-cycle at `A` and an
independent pending `B`, the `get_project_next_steps` tool hands the caller
the ready list `[B]` even though a cycle exists. -/
theorem claim_C6_counterexample :
    detect_cycles gSelfB = true ∧
    compute_next_steps gSelfB stAllPending = ["B"] ∧
    (tools_call gSelfB stAllPending "get_project_next_steps" none none).1 =
      ToolResult.okList ["B"] := by
  exact ⟨by decide, by decide, by decide⟩

/-- Claim C6 as amended: when a cycle exists, `evaluate_project_state` and
`diagnose_stall` do report `blocked_by_cycle`, but the exposed
`get_project_next_steps` tool returns the raw `compute_next_steps` list
unconditionally, so a caller can still receive a ready list. -/
theorem claim_C6 (g : G) (st : Store) (h : ClosedWalk (depEdge g)) :
    evaluate_project_state g st = "blocked_by_cycle" ∧
    (diagnose_stall g st).state = "blocked_by_cycle" ∧
    (tools_call g st "get_project_next_steps" none none).1 =
      ToolResult.okList (compute_next_steps g st) := by
  have hdet : detect_cycles g = true := (detect_cycles_iff g).mpr h
  have hne := closedWalk_modules_ne_nil g h
  refine ⟨evaluate_blocked g st hdet, ?_, rfl⟩
  simp only [diagnose_stall]
  rw [if_neg (fun hh => hne (List.isEmpty_iff.mp hh)), if_pos hdet]

/-- Witness for C6 at the cyclic fixture. -/
theorem claim_C6_witness :
    evaluate_project_state gSelfB stAllPending = "blocked_by_cycle" ∧
    (diagnose_stall gSelfB stAllPending).state = "blocked_by_cycle" ∧
    (tools_call gSelfB stAllPending "get_project_next_steps" none none).1 =
      ToolResult.okList (compute_next_steps gSelfB stAllPending) :=
  claim_C6 gSelfB stAllPending ((detect_cycles_iff gSelfB).mp (by decide))

/-- Claim C7: the critical-path edges are exactly the dependency edges whose
two endpoints are both non-completed graph modules, oriented dependency →
dependent; on an acyclic active subgraph the computation returns a chain of
that relation, counted by its node count, such that no chain is longer; a
fully-completed or empty graph yields length 0 with an empty path; and the
chain fixture with `A` completed yields length 2 with path `[B, C]`. -/
theorem claim_C7 :
    (∀ (g : G) (st : Store) (a b : String),
      edgeOf (radj g st) a b ↔
        (a ∈ g.modules ∧ st a ≠ some "completed") ∧
        (b ∈ g.modules ∧ st b ≠ some "completed") ∧ a ∈ g.deps b) ∧
    (∀ (g : G) (st : Store), ¬ ClosedWalk (edgeOf (radj g st)) →
      ∃ L p, compute_operational_critical_path g st = some (L, p) ∧
        bestOK g st L p ∧
        ∀ n ∈ activeModules g st, ∀ l,
          chain (edgeOf (radj g st)) n l → l.length + 1 ≤ L) ∧
    (∀ (g : G) (st : Store), activeModules g st = [] →
      compute_operational_critical_path g st = some (0, [])) ∧
    compute_operational_critical_path gChain stAdone =
      some (2, ["B", "C"]) := by
  refine ⟨?_, fun g st hac => crit_correct g st hac, ?_, by decide⟩
  · intro g st a b
    show b ∈ radj g st a ↔ _
    rw [radj_mem, activeModules_mem, activeModules_mem]
  · intro g st hempty
    unfold compute_operational_critical_path
    rw [hempty]
    rfl

/-- Witness for C7 at the chain fixture, whose active subgraph is acyclic. -/
theorem claim_C7_witness :
    ∃ L p, compute_operational_critical_path gChain stAdone = some (L, p) ∧
      bestOK gChain stAdone L p ∧
      ∀ n ∈ activeModules gChain stAdone, ∀ l,
        chain (edgeOf (radj gChain stAdone)) n l → l.length + 1 ≤ L := by
  have hac : ¬ ClosedWalk (edgeOf (radj gChain stAdone)) := by
    rw [closedWalk_radj_iff_detect]
    decide
  exact claim_C7.2.1 gChain stAdone hac

/-- A store holding only a shadow entry for `B`, written through the status
upsert. -/
def stShadow : Store := set_db_status stEmpty "B" "completed"

/-- Counterexample for C8: the shadow id `B` is persisted in the store but
does not appear in the status snapshot (nor in the diagnosis snapshot),
which enumerate graph modules only. -/
theorem claim_C8_counterexample :
    stShadow "B" = some "completed" ∧
    get_status_snapshot gOnlyA stShadow = [⟨"A", "unset"⟩] ∧
    ¬ (∃ e ∈ get_status_snapshot gOnlyA stShadow, e.module = "B") ∧
    (diagnose_stall gOnlyA stShadow).status_snapshot = [⟨"A", "unset"⟩] := by
  exact ⟨rfl, by decide, by decide, by decide⟩

/-- Claim C8 as amended: a status write for an id unknown to the graph is
persisted (and later reads of that id see it), but the snapshot never lists
it — snapshots enumerate only GraphSource modules. -/
theorem claim_C8 (g : G) (st : Store) (id status : String)
    (hid : id ∉ g.modules) :
    set_db_status st id status id = some status ∧
    ¬ (∃ e ∈ get_status_snapshot g (set_db_status st id status),
        e.module = id) ∧
    (∀ x, x ≠ id → set_db_status st id status x = st x) := by
  refine ⟨by unfold set_db_status; rw [if_pos rfl], ?_, ?_⟩
  · intro hex
    exact hid ((snapshot_module_mem g (set_db_status st id status) id).mp hex)
  · intro x hx
    unfold set_db_status
    rw [if_neg hx]

/-- Witness for C8 at the shadow fixture. -/
theorem claim_C8_witness :
    set_db_status stEmpty "B" "completed" "B" = some "completed" ∧
    ¬ (∃ e ∈ get_status_snapshot gOnlyA
        (set_db_status stEmpty "B" "completed"), e.module = "B") ∧
    (∀ x, x ≠ "B" → set_db_status stEmpty "B" "completed" x = stEmpty x) :=
  claim_C8 gOnlyA stEmpty "B" "completed" (by decide)

/-- Counterexample for C9: two snapshots with the same module set, edges and
statuses but different enumeration orders give differently-ordered ready
lists and different critical paths — the order is not fixed lexicographic. -/
theorem claim_C9_counterexample :
    gAB.modules.Perm gBA.modules ∧ gAB.deps = gBA.deps ∧
    compute_next_steps gAB stAllPending = ["A", "B"] ∧
    compute_next_steps gBA stAllPending = ["B", "A"] ∧
    compute_next_steps gAB stAllPending ≠
      compute_next_steps gBA stAllPending ∧
    compute_operational_critical_path gAB stAllPending = some (1, ["A"]) ∧
    compute_operational_critical_path gBA stAllPending = some (1, ["B"]) := by
  exact ⟨by decide, rfl, by decide, by decide, by decide, by decide,
    by decide⟩

/-- Claim C9 as amended: the ready list is the enumeration order restricted
to ready modules (a sublist of the module enumeration), its membership — and
hence the result as a multiset — is enumeration-invariant, and the
critical-path length is enumeration-invariant, while the returned orders and
tie-broken path follow the enumeration. -/
theorem claim_C9 (g1 g2 : G) (st : Store) (hd : g1.deps = g2.deps)
    (hp : g1.modules.Perm g2.modules) :
    (compute_next_steps g1 st).Perm (compute_next_steps g2 st) ∧
    (compute_next_steps g1 st).Sublist g1.modules ∧
    (¬ ClosedWalk (edgeOf (radj g1 st)) →
      ∃ L p1 p2, compute_operational_critical_path g1 st = some (L, p1) ∧
        compute_operational_critical_path g2 st = some (L, p2)) :=
  ⟨compute_next_steps_perm g1 g2 st hd hp,
   compute_next_steps_sublist g1 st,
   fun hac => crit_length_eq g1 g2 st hd hp hac⟩

/-- Witness for C9 at the two-enumeration fixture. -/
theorem claim_C9_witness :
    (compute_next_steps gAB stAllPending).Perm
      (compute_next_steps gBA stAllPending) ∧
    (compute_next_steps gAB stAllPending).Sublist gAB.modules ∧
    (∃ L p1 p2,
      compute_operational_critical_path gAB stAllPending = some (L, p1) ∧
      compute_operational_critical_path gBA stAllPending = some (L, p2)) := by
  have h := claim_C9 gAB gBA stAllPending rfl (by decide)
  have hac : ¬ ClosedWalk (edgeOf (radj gAB stAllPending)) := by
    rw [closedWalk_radj_iff_detect]
    decide
  exact ⟨h.1, h.2.1, h.2.2 hac⟩

/-- Claim C10: with no modules at all, the lifecycle state is `stalled`
(never `completed`), and the diagnosis is the distinct no-modules report
with an empty snapshot and empty blocked list. -/
theorem claim_C10 (deps : String → List String) (st : Store) :
    evaluate_project_state ⟨[], deps⟩ st = "stalled" ∧
    diagnose_stall ⟨[], deps⟩ st =
      { state := "stalled"
        summary := "No modules found in ontology."
        status_snapshot := []
        ready_modules := none
        blocked := []
        recommendations := ["Verify ontology has :Module instances."] } :=
  ⟨rfl, rfl⟩
